import Mathlib

/-!
Shallow embedding of the `hdf5_to_text_table` pipeline
(`src/hdf5_to_text_table.py`).

Strings of the program are modelled by Lean `String` (a packed `List Char`),
numeric values by an arbitrary type `α`, and Python's numeric-format
mini-language (`f"{value:{p}}"`) by an explicit formatting function
`fmt : String → α → String` passed to the stages that format values: none of
the verified claims depends on the concrete rendering of a number, only on
where each rendered cell is placed.  Python exceptions are modelled by
`Except String`.
-/

namespace Hdf5Table

/-- A catalog entry as produced by `read_hdf5_file`: the dictionary
`{"name": e, "tree": subtree, "data": numpy.asarray(element)}`.
`ndim` is the dimensionality of the stored array; `values` is its contents
when one-dimensional (the only case the pipeline keeps, so for `ndim ≠ 1`
only the fact `ndim ≠ 1` matters).  `pos` models the `d["pos"]` key that the
program adds later (absent = 0 here; it is only read after being written). -/
structure Entry (α : Type) where
  name : String
  tree : String
  ndim : Nat
  values : List α
  pos : Nat := 0
deriving DecidableEq

variable {α : Type}

/-- `filter_data(data, ignore, columns)` from the source.

The source iterates `for i in ignore: if i in [d["name"], d["tree"]]:
print_func(...); continue` — that `continue` only advances the *inner* loop
over ignore tokens, so a match produces a diagnostic but never skips the
entry; the loop has no effect on the returned list and is therefore not
represented here.  The dimensionality / singleton checks and the
columns-selection (which also assigns `d["pos"]`) are translated directly. -/
def filter_data (data : List (Entry α)) (ignore columns : List String) :
    List (Entry α) :=
  data.filterMap (fun d =>
    if d.ndim ≠ 1 then
      none
    else if d.values.length = 1 then
      none
    else if 0 < columns.length then
      if d.tree ∈ columns then
        some { d with pos := columns.indexOf d.tree }
      else if d.name ∈ columns then
        some { d with pos := columns.indexOf d.name }
      else
        none
    else
      some d)

/-- The `len(precision)` case split of `main` (lines 37–46): empty → default
`"10.3e"` per column, one token → broadcast, count mismatch → `ValueError`
with the message of the source, otherwise use as-is. -/
def resolve_precision (precision columns : List String) :
    Except String (List String) :=
  match precision with
  | [] => .ok (columns.map (fun _ => "10.3e"))
  | [p] => .ok (columns.map (fun _ => p))
  | ps =>
    if ps.length ≠ columns.length then
      .error ("number of precision format strings is " ++
        toString ps.length ++ " but does not match number of columns of " ++
        toString columns.length)
    else
      .ok ps

/-- Lexicographic order on character lists by code point — Python's string
comparison. -/
def lexLe : List Char → List Char → Bool
  | [], _ => true
  | _ :: _, [] => false
  | c :: cs, d :: ds =>
    if c.toNat < d.toNat then true
    else if d.toNat < c.toNat then false
    else lexLe cs ds

/-- Python `a <= b` on strings. -/
def strLe (a b : String) : Bool :=
  lexLe a.data b.data

/-- `sorted([d["tree"] for d in data])` (line 33): Python `sorted` is a
stable sort under the lexicographic string order. -/
def sorted_columns (data : List (Entry α)) : List String :=
  (data.map (fun d => d.tree)).mergeSort strLe

/-- Lines 34–35 of `main`: `d["pos"] = columns.index(d["tree"])` for every
entry, where `columns` is `sorted_columns data`. -/
def assign_positions (data : List (Entry α)) : List (Entry α) :=
  data.map (fun d => { d with pos := (sorted_columns data).indexOf d.tree })

/-- `data.sort(key=lambda d: d["pos"])` (line 48): Python `list.sort` is a
stable sort on the key. -/
def sort_by_pos (data : List (Entry α)) : List (Entry α) :=
  data.mergeSort (fun a b => decide (a.pos ≤ b.pos))

/-- `max([d["data"].size for d in data])` (line 247).  Python `max` raises
`ValueError: max() arg is an empty sequence` on an empty list; for the
nonempty case the fold below is the maximum. -/
def maxRows (data : List (Entry α)) : Nat :=
  (data.map (fun d => d.values.length)).foldl Nat.max 0

/-- Python format `f"{s:>{w}s}"` (and `f"{v:{w}d}"` for numbers): right
alignment, i.e. the string is padded on the left with spaces up to width `w`
(unchanged when already at least that long — truncated subtraction). -/
def padLeft (w : Nat) (s : String) : String :=
  ⟨List.replicate (w - s.length) ' ' ++ s.data⟩

/-- Python format `f"{s:^{w}s}"`: centering puts `(w - len) / 2` fill
characters on the left and the rest on the right. -/
def padCenter (w : Nat) (s : String) : String :=
  ⟨List.replicate ((w - s.length) / 2) ' ' ++ s.data ++
    List.replicate ((w - s.length) - (w - s.length) / 2) ' '⟩

/-- Python's whitespace predicate (CPython `Py_UNICODE_ISSPACE`), the set
of characters `str.rstrip()`, `str.split()` and `str.isspace()` treat as
whitespace: ASCII `0x09`–`0x0D` (tab, LF, VT, FF, CR), `0x1C`–`0x1F` (the
file/group/record/unit separators), `0x20` (space), plus NEL, NBSP, OGHAM
SPACE MARK, the EN QUAD…HAIR SPACE range, LINE SEPARATOR, PARAGRAPH
SEPARATOR, NARROW NO-BREAK SPACE, MEDIUM MATHEMATICAL SPACE and
IDEOGRAPHIC SPACE. -/
def pyIsSpace (c : Char) : Bool :=
  decide ((0x09 ≤ c.toNat ∧ c.toNat ≤ 0x0D) ∨
    (0x1C ≤ c.toNat ∧ c.toNat ≤ 0x20) ∨
    c.toNat = 0x85 ∨ c.toNat = 0xA0 ∨ c.toNat = 0x1680 ∨
    (0x2000 ≤ c.toNat ∧ c.toNat ≤ 0x200A) ∨
    c.toNat = 0x2028 ∨ c.toNat = 0x2029 ∨ c.toNat = 0x202F ∨
    c.toNat = 0x205F ∨ c.toNat = 0x3000)

/-- `str.rstrip()` on the character list: drop the maximal suffix of
Python-whitespace characters. -/
def rstripL (l : List Char) : List Char :=
  (l.reverse.dropWhile pyIsSpace).reverse

/-- `str.rstrip()`. -/
def rstrip (s : String) : String :=
  ⟨rstripL s.data⟩

/-- Python `sep.join(parts)` on character lists: the parts concatenated
with one copy of `sep` between consecutive parts. -/
def joinSep (d : List Char) : List (List Char) → List Char
  | [] => []
  | [c] => c
  | c :: c' :: cs => c ++ d ++ joinSep d (c' :: cs)

/-- Python `delimiter.join(line_columns)`. -/
def pyJoin (delimiter : String) (parts : List String) : String :=
  ⟨joinSep delimiter.data (parts.map (fun p => p.data))⟩

/-- `build_table(data, precision, number)` (lines 232–265).  The row for
index `n` holds the optional line-number cell
`f"{n+1:{len(str(max_rows))}d}"` followed by one cell per `zip(precision,
data)` pair: the formatted value when `n` is in bounds, the placeholder
`"-"` on `IndexError`.  An empty `data` makes `max([])` raise. -/
def build_table (fmt : String → α → String) (data : List (Entry α))
    (precision : List String) (number : Bool) :
    Except String (List (List String)) :=
  match data with
  | [] => .error "max() arg is an empty sequence"
  | _ =>
    .ok ((List.range (maxRows data)).map (fun n =>
      (if number then
        [padLeft (toString (maxRows data)).length (toString (n + 1))]
      else []) ++
      (precision.zip data).map (fun pd =>
        match pd.2.values[n]? with
        | some v => fmt pd.1 v
        | none => "-")))

/-- `create_header(data, number, full_name)` (lines 268–286). -/
def create_header (data : List (Entry α)) (number full_name : Bool) :
    List String :=
  (if number then ["#"] else []) ++
    data.map (fun d => if full_name then d.tree else d.name)

/-- The size-update pass of `convert_to_text` (lines 302–306): starting from
the header cell lengths, widen entry `i` by each row's cell `i`.  Python
raises `IndexError` when a row is longer than `column_sizes`; the error case
is handled in `convert_to_text`, this is the in-bounds computation. -/
def computeSizes (header : List String) (table : List (List String)) :
    List Nat :=
  table.foldl
    (fun sizes line =>
      List.zipWith (fun sz (c : String) => Nat.max sz c.length) sizes line ++
        sizes.drop line.length)
    (header.map (fun c => c.length))

/-- The separator rule of `convert_to_text` (lines 317–319): `"-" *
(sum(column_sizes) + (len(column_sizes) - 1) * len(delimiter))` (for an
empty header Python's negative repeat count and the truncated subtraction
both give the empty string). -/
def sepLine (sizes : List Nat) (delimiter : String) : String :=
  ⟨List.replicate (sizes.sum + (sizes.length - 1) * delimiter.length) '-'⟩

/-- `convert_to_text(table, header, delimiter)` (lines 289–328): header line
(cells centered to the column sizes, joined, right-stripped), separator
line, then one line per row (cells right-aligned, joined, right-stripped).
`zip` truncates to the shorter list, exactly as in the source.  A row longer
than the header makes the size loop raise `IndexError`. -/
def convert_to_text (table : List (List String)) (header : List String)
    (delimiter : String) : Except String (List String) :=
  if ∀ line ∈ table, line.length ≤ header.length then
    let sizes := computeSizes header table
    .ok (rstrip (pyJoin delimiter
          (List.zipWith (fun (c : String) w => padCenter w c) header sizes))
      :: sepLine sizes delimiter
      :: table.map (fun line =>
          rstrip (pyJoin delimiter
            (List.zipWith (fun (c : String) w => padLeft w c) line sizes))))
  else
    .error "IndexError: list assignment index out of range"

/-- The column-name list used for precision resolution (lines 32–33 of
`main`): the explicit `columns` argument, or, when it is empty, the sorted
tree names of the filtered data. -/
def pipeline_columns (data0 : List (Entry α))
    (ignoreArg columnsArg : List String) : List String :=
  if columnsArg.length = 0 then
    sorted_columns (filter_data data0 ignoreArg columnsArg)
  else columnsArg

/-- The part of `main` between argument parsing / file reading and the
final write (lines 30–58): filtering, column-order resolution (explicit
list or lexicographic by tree), precision resolution, sorting by `pos`,
table construction, header, text conversion, and the empty-table early
exit.  `.ok none` is the early `return` without an output file;
`.ok (some lines)` means `lines` would be written. -/
def pipeline (fmt : String → α → String) (data0 : List (Entry α))
    (ignoreArg columnsArg precisionArg : List String)
    (number full_name : Bool) (delimiter : String) :
    Except String (Option (List String)) :=
  let data1 := filter_data data0 ignoreArg columnsArg
  let columns := pipeline_columns data0 ignoreArg columnsArg
  let data2 := if columnsArg.length = 0 then assign_positions data1
    else data1
  match resolve_precision precisionArg columns with
  | .error e => .error e
  | .ok precision =>
    let data3 := sort_by_pos data2
    match build_table fmt data3 precision number with
    | .error e => .error e
    | .ok table =>
      let header := create_header data3 number full_name
      match convert_to_text table header delimiter with
      | .error e => .error e
      | .ok lines => .ok (if lines.length = 0 then none else some lines)

/-- The cell of `table` at row `n`, column `i` (0-based), when both
indices are in bounds. -/
def cellAt (table : List (List String)) (n i : Nat) : Option String :=
  (table[n]?).bind (fun row => row[i]?)

/-- Python `s.split(sep)` for a non-empty separator, on character lists:
scan left to right, each (greedy, non-overlapping) occurrence of `d` ends
the current field.  For `d = []` Python raises; here the guard `d ≠ []`
simply fails and the scan keeps every character, which is never used. -/
def pySplit (d : List Char) : List Char → List (List Char)
  | [] => [[]]
  | c :: rest =>
    if h : d ≠ [] ∧ d.isPrefixOf (c :: rest) then
      [] :: pySplit d ((c :: rest).drop d.length)
    else
      match pySplit d rest with
      | [] => [[c]]
      | f :: fs => (c :: f) :: fs
termination_by s => s.length
decreasing_by
  · simp only [List.length_drop, List.length_cons]
    have : d.length ≠ 0 := fun hn => h.1 (List.length_eq_zero.mp hn)
    omega
  · simp

/-! ## Theorems -/

unseal List.merge List.mergeSort pySplit

/-- C1: the spec claims that a series whose name or path matches an ignore
token is excluded from the selector's output, and in particular that
ignoring `/a` in a catalog holding `/a` and `/b/c` leaves only `/b/c`.
The code's `continue` in `filter_data` (line 213) only exits the inner loop
over ignore tokens, so an ignore match never skips the entry: on the
catalog `{/a, /b/c}` with `ignore = {/a}` and no explicit columns both
series survive filtering, and the resulting table has two columns. -/
theorem C1_ignored_series_not_excluded :
    (filter_data [{ name := "a", tree := "/a", ndim := 1, values := [(1:Nat), 2] },
                  { name := "c", tree := "/b/c", ndim := 1, values := [3, 4] }]
        ["/a"] []).map (fun d => d.tree) = ["/a", "/b/c"] ∧
    pipeline (fun p _ => p)
      [{ name := "a", tree := "/a", ndim := 1, values := [(1:Nat), 2] },
       { name := "c", tree := "/b/c", ndim := 1, values := [3, 4] }]
      ["/a"] [] [] false false "  "
      = .ok (some ["  a      c", "------------",
                   "10.3e  10.3e", "10.3e  10.3e"]) := by
  refine ⟨?_, ?_⟩ <;> rfl

/-- C2: the spec claims that an empty selection terminates the run early
with no error and no output file.  In the code an empty selection reaches
`max([d["data"].size for d in data])` (line 247) with an empty list, which
raises `ValueError`; the empty-table early exit of line 56 is never
reached.  Here the single catalog entry matches no explicit column, the
selection is empty, and the pipeline fails instead of returning quietly. -/
theorem C2_empty_selection_raises :
    pipeline (fun p _ => p)
      [{ name := "a", tree := "/a", ndim := 1, values := [(1:Nat), 2] }]
      [] ["z"] [] false false "    "
      = .error "max() arg is an empty sequence" := by
  exact rfl

/-- C3: precision-token resolution against the final column count: an empty
token list gives every column the default format `10.3e`; a single token is
broadcast to all columns; a list of exactly the column count is used as-is;
any other count makes `resolve_precision` fail with the `ValueError`
message naming both counts, and that failure propagates so that `pipeline`
stops with the same error before building any table. -/
theorem C3_precision_cardinality {α : Type} (precision columns : List String) :
    (precision.length = 0 →
      resolve_precision precision columns =
        .ok (columns.map (fun _ => "10.3e"))) ∧
    (∀ p, precision = [p] →
      resolve_precision precision columns =
        .ok (columns.map (fun _ => p))) ∧
    (precision.length = columns.length →
      resolve_precision precision columns = .ok precision) ∧
    (2 ≤ precision.length → precision.length ≠ columns.length →
      resolve_precision precision columns = .error
        ("number of precision format strings is " ++
          toString precision.length ++
          " but does not match number of columns of " ++
          toString columns.length)) ∧
    (∀ (fmt : String → α → String) data0 ignoreArg number full_name
        delimiter e,
      resolve_precision precision (pipeline_columns data0 ignoreArg columns)
          = .error e →
      pipeline fmt data0 ignoreArg columns precision number full_name
          delimiter = .error e) := by
  refine ⟨?_, ?_, ?_, ?_, ?_⟩
  · intro h
    rw [List.length_eq_zero.mp h]
    rfl
  · intro p h
    rw [h]
    rfl
  · intro h
    match precision, h with
    | [], h =>
      have : columns = [] := List.length_eq_zero.mp h.symm
      rw [this]
      rfl
    | [p], h =>
      obtain ⟨c, hc⟩ := List.length_eq_one.mp h.symm
      rw [hc]
      rfl
    | p :: q :: ps, h =>
      simp only [resolve_precision, if_neg (by omega : ¬(p :: q :: ps).length ≠ columns.length)]
  · intro h2 hne
    match precision, h2, hne with
    | p :: q :: ps, _, hne =>
      simp only [resolve_precision]
      rw [if_pos hne]
  · intro fmt data0 ignoreArg number full_name delimiter e h
    simp only [pipeline, h]

/-- Witness for C3 at concrete inputs: two precision tokens against three
columns produce the error naming `2` and `3`. -/
theorem C3_precision_cardinality_witness :
    resolve_precision ["a", "b"] ["x", "y", "z"] = .error
      ("number of precision format strings is 2 but does not match " ++
        "number of columns of 3") := by
  have h := (C3_precision_cardinality (α := Nat) ["a", "b"] ["x", "y", "z"]).2.2.2.1
    (by decide) (by decide)
  simpa using h

lemma build_table_data_ne_nil {fmt : String → α → String}
    {data : List (Entry α)} {precision : List String} {number : Bool}
    {table : List (List String)}
    (hb : build_table fmt data precision number = .ok table) : data ≠ [] := by
  intro h
  subst h
  simp [build_table] at hb

lemma build_table_row {fmt : String → α → String} {data : List (Entry α)}
    {precision : List String} {number : Bool} {table : List (List String)}
    (hb : build_table fmt data precision number = .ok table)
    {n : Nat} (hn : n < maxRows data) :
    table[n]? = some ((if number then
        [padLeft (toString (maxRows data)).length (toString (n + 1))]
      else []) ++
      (precision.zip data).map (fun pd =>
        match pd.2.values[n]? with
        | some v => fmt pd.1 v
        | none => "-")) := by
  cases data with
  | nil => simp [build_table] at hb
  | cons d ds =>
    simp only [build_table] at hb
    rw [← Except.ok.inj hb]
    rw [List.getElem?_map, List.getElem?_range hn]
    rfl

lemma foldl_max_init_le (l : List Nat) (a : Nat) : a ≤ l.foldl Nat.max a := by
  induction l generalizing a with
  | nil => simp
  | cons x xs ih => exact le_trans (Nat.le_max_left a x) (ih (Nat.max a x))

lemma le_foldl_max_of_mem {l : List Nat} {x : Nat} (h : x ∈ l) (a : Nat) :
    x ≤ l.foldl Nat.max a := by
  induction l generalizing a with
  | nil => simp at h
  | cons y ys ih =>
    rcases List.mem_cons.mp h with h | h
    · subst h
      exact le_trans (Nat.le_max_right a x) (foldl_max_init_le ys _)
    · exact ih h _

lemma foldl_max_eq_init_or_mem (l : List Nat) (a : Nat) :
    l.foldl Nat.max a = a ∨ l.foldl Nat.max a ∈ l := by
  induction l generalizing a with
  | nil => simp
  | cons x xs ih =>
    rw [List.foldl_cons]
    have hmm : Nat.max a x = max a x := rfl
    rcases Nat.le_total a x with hax | hxa
    · rcases ih (Nat.max a x) with h | h
      · right
        rw [h, hmm, (by omega : max a x = x)]
        exact List.mem_cons_self x xs
      · right
        exact List.mem_cons_of_mem x h
    · rcases ih (Nat.max a x) with h | h
      · left
        rw [h, hmm, (by omega : max a x = a)]
      · right
        exact List.mem_cons_of_mem x h

lemma maxRows_ge {data : List (Entry α)} {d : Entry α} (h : d ∈ data) :
    d.values.length ≤ maxRows data :=
  le_foldl_max_of_mem
    (List.mem_map_of_mem (fun d : Entry α => d.values.length) h) 0

lemma maxRows_attained {data : List (Entry α)} (h : data ≠ []) :
    ∃ d ∈ data, d.values.length = maxRows data := by
  rcases foldl_max_eq_init_or_mem (data.map (fun d => d.values.length)) 0
    with h0 | hm
  · obtain ⟨d, hd⟩ := List.exists_mem_of_ne_nil data h
    refine ⟨d, hd, ?_⟩
    have h1 : d.values.length ≤ maxRows data := maxRows_ge hd
    have h2 : maxRows data = 0 := h0
    omega
  · obtain ⟨d, hd, hlen⟩ := List.mem_map.mp hm
    exact ⟨d, hd, hlen⟩

/-- C10: with row numbering enabled, row `k` (0-based) starts with the cell
`f"{k+1:{len(str(max_rows))}d}"`: the decimal rendering of `k + 1`
left-padded with spaces to the digit count of `max_rows` (right
alignment), and the header's first cell is `"#"`. -/
theorem C10_row_number_cell (fmt : String → α → String)
    (data : List (Entry α)) (precision : List String) (full_name : Bool)
    (table : List (List String))
    (hb : build_table fmt data precision true = .ok table) :
    (∀ k, k < maxRows data →
      cellAt table k 0 = some ⟨List.replicate
          ((toString (maxRows data)).length - (toString (k + 1)).length) ' '
        ++ (toString (k + 1)).data⟩) ∧
    (create_header data true full_name).head? = some "#" := by
  constructor
  · intro k hk
    unfold cellAt
    rw [build_table_row hb hk]
    simp [padLeft]
  · rfl

/-- Witness for C10: three values and numbering on; the second row's
numbering cell shows `2`, and the header starts with `#`. -/
theorem C10_row_number_cell_witness :
    (∃ table,
      build_table (fun p (_ : Nat) => p)
        [{ name := "a", tree := "/a", ndim := 1, values := [5, 6, 7] }]
        ["p"] true = .ok table ∧
      cellAt table 1 0 = some "2") ∧
    (create_header
        [{ name := "a", tree := "/a", ndim := 1, values := [(5:Nat), 6, 7] }]
        true false).head? = some "#" := by
  have h := C10_row_number_cell (fun p (_ : Nat) => p)
    [{ name := "a", tree := "/a", ndim := 1, values := [5, 6, 7] }]
    ["p"] false _ (rfl)
  refine ⟨⟨_, rfl, ?_⟩, h.2⟩
  have h1 := h.1 1 (by decide)
  simpa using h1

/-- C5: for a non-empty selection (and the per-column format tokens of the
pipeline, one per series), the built table has exactly `max_rows` rows
where `max_rows` is the maximum series length (an upper bound that is
attained); every row has the same cell count, namely the numbering cell
plus one cell per series; and any cell of a row index `n ≥` the length of
its series holds the placeholder `"-"`. -/
theorem C5_ragged_series_padding (fmt : String → α → String)
    (data : List (Entry α)) (precision : List String) (number : Bool)
    (table : List (List String))
    (hlen : precision.length = data.length)
    (hb : build_table fmt data precision number = .ok table) :
    table.length = maxRows data ∧
    (∀ d ∈ data, d.values.length ≤ maxRows data) ∧
    (∃ d ∈ data, d.values.length = maxRows data) ∧
    (∀ row ∈ table, row.length =
      (if number then 1 else 0) + data.length) ∧
    (∀ n, n < maxRows data → ∀ i, ∀ d : Entry α, data[i]? = some d →
      d.values.length ≤ n →
      cellAt table n ((if number then 1 else 0) + i) = some "-") := by
  have hne : data ≠ [] := build_table_data_ne_nil hb
  have htab : table = (List.range (maxRows data)).map (fun n =>
      (if number then
        [padLeft (toString (maxRows data)).length (toString (n + 1))]
      else []) ++
      (precision.zip data).map (fun pd =>
        match pd.2.values[n]? with
        | some v => fmt pd.1 v
        | none => "-")) := by
    cases data with
    | nil => simp at hne
    | cons d ds =>
      simp only [build_table] at hb
      exact (Except.ok.inj hb).symm
  refine ⟨?_, fun d hd => maxRows_ge hd, maxRows_attained hne, ?_, ?_⟩
  · rw [htab, List.length_map, List.length_range]
  · intro row hrow
    rw [htab] at hrow
    obtain ⟨n, _, hrow⟩ := List.mem_map.mp hrow
    rw [← hrow, List.length_append, List.length_map, List.length_zip,
      hlen, Nat.min_self]
    cases number <;> simp
  · intro n hn i d hd hshort
    unfold cellAt
    rw [build_table_row hb hn]
    have hi : i < data.length := by
      by_contra hcon
      rw [List.getElem?_eq_none (by omega)] at hd
      exact Option.noConfusion hd
    have hip : i < precision.length := by omega
    have hplen : (if number then
        [padLeft (toString (maxRows data)).length (toString (n + 1))]
      else []).length = (if number then 1 else 0) := by
      cases number <;> rfl
    rw [Option.some_bind,
      List.getElem?_append_right (by rw [hplen]; omega), hplen,
      (by omega : (if number then 1 else 0) + i -
        (if number then 1 else 0) = i),
      List.getElem?_map, List.zip_eq_zipWith, List.getElem?_zipWith,
      List.getElem?_eq_getElem hip, hd]
    simp [List.getElem?_eq_none hshort]

/-- Witness for C5: series of lengths 3 and 2 give a 3-row table whose last
row holds the placeholder for the shorter series. -/
theorem C5_ragged_series_padding_witness :
    ∃ table,
      build_table (fun p (_ : Nat) => p)
        [{ name := "a", tree := "/a", ndim := 1, values := [1, 2, 3] },
         { name := "b", tree := "/b", ndim := 1, values := [4, 5] }]
        ["p", "q"] false = .ok table ∧
      table.length = 3 ∧ cellAt table 2 1 = some "-" := by
  have h := C5_ragged_series_padding (fun p (_ : Nat) => p)
    [{ name := "a", tree := "/a", ndim := 1, values := [1, 2, 3] },
     { name := "b", tree := "/b", ndim := 1, values := [4, 5] }]
    ["p", "q"] false _ (by decide) rfl
  refine ⟨_, rfl, ?_, ?_⟩
  · rw [h.1]
    decide
  · have h2 := h.2.2.2.2 2 (by decide) 1
      { name := "b", tree := "/b", ndim := 1, values := [4, 5] } rfl
      (by decide)
    simp only [(by decide : (if false then 1 else 0) + 1 = 1)] at h2
    exact h2

/-- C4 counterexample: with `columns = [x, y, c]` only the series named `c`
survives, carrying `pos = 2` (its order key).  The claim says its cells are
formatted with the token at position 2, `"r"`; but `build_table` zips the
precision list positionally with the sorted selection, so the series gets
the first token `"p"` — visible in both body rows of the rendered table
(the format function here returns the token itself). -/
theorem C4_counterexample :
    pipeline (fun p _ => p)
      [{ name := "c", tree := "/b/c", ndim := 1, values := [(3:Nat), 4] }]
      [] ["x", "y", "c"] ["p", "q", "r"] false false "  "
      = .ok (some ["c", "-", "p", "p"]) ∧
    (filter_data
        [{ name := "c", tree := "/b/c", ndim := 1, values := [(3:Nat), 4] }]
        [] ["x", "y", "c"]).map (fun d => d.pos) = [2] ∧
    (["p", "q", "r"] : List String)[2]? = some "r" ∧ ("p" : String) ≠ "r" := by
  exact ⟨by rfl, by rfl, by rfl, by decide⟩

/-- C4 amended: the format token applied to a selected series is the token
at the series' *index in the order-key-sorted selection* (the zip is
positional).  This coincides with the token at the series' `order_key`
whenever the order keys of the selection are exactly `0, 1, …, k-1` — in
particular whenever every `columns` token matches a series, or `columns` is
empty — but not in general when some `columns` tokens match no series. -/
theorem C4_format_token_positional (fmt : String → α → String)
    (data : List (Entry α)) (precision : List String) (number : Bool)
    (table : List (List String))
    (hb : build_table fmt data precision number = .ok table)
    (i : Nat) (d : Entry α) (p : String)
    (hd : data[i]? = some d) (hp : precision[i]? = some p)
    (n : Nat) (hn : n < maxRows data) :
    cellAt table n ((if number then 1 else 0) + i) =
      some (match d.values[n]? with
        | some v => fmt p v
        | none => "-") ∧
    ((∀ j, ∀ e : Entry α, data[j]? = some e → e.pos = j) →
      precision[d.pos]? = some p) := by
  constructor
  · unfold cellAt
    rw [build_table_row hb hn]
    have hplen : (if number then
        [padLeft (toString (maxRows data)).length (toString (n + 1))]
      else []).length = (if number then 1 else 0) := by
      cases number <;> rfl
    rw [Option.some_bind,
      List.getElem?_append_right (by rw [hplen]; omega), hplen,
      (by omega : (if number then 1 else 0) + i -
        (if number then 1 else 0) = i),
      List.getElem?_map, List.zip_eq_zipWith, List.getElem?_zipWith, hp, hd]
    rfl
  · intro hpos
    rw [hpos i d hd]
    exact hp

/-- Witness for C4 (amended): two series with dense order keys; the second
series receives the second token, which is also the token at its order
key. -/
theorem C4_format_token_positional_witness :
    ∃ table,
      build_table (fun p (_ : Nat) => p)
        [{ name := "a", tree := "/a", ndim := 1, values := [1, 2], pos := 0 },
         { name := "b", tree := "/b", ndim := 1, values := [3], pos := 1 }]
        ["p", "q"] false = .ok table ∧
      cellAt table 0 1 = some "q" ∧
      (["p", "q"] : List String)[1]? = some "q" := by
  have h := C4_format_token_positional (fun p (_ : Nat) => p)
    [{ name := "a", tree := "/a", ndim := 1, values := [1, 2], pos := 0 },
     { name := "b", tree := "/b", ndim := 1, values := [3], pos := 1 }]
    ["p", "q"] false _ rfl 1
    { name := "b", tree := "/b", ndim := 1, values := [3], pos := 1 }
    "q" rfl rfl 0 (by decide)
  refine ⟨_, rfl, ?_, rfl⟩
  have h1 := h.1
  simp only [(by decide : (if false then 1 else 0) + 1 = 1)] at h1
  rw [h1]
  rfl

lemma lexLe_total (a b : List Char) : lexLe a b || lexLe b a := by
  induction a generalizing b with
  | nil => simp [lexLe]
  | cons c cs ih =>
    cases b with
    | nil => simp [lexLe]
    | cons d ds =>
      simp only [lexLe]
      rcases Nat.lt_trichotomy c.toNat d.toNat with h | h | h
      · simp [h, (by omega : ¬ d.toNat < c.toNat)]
      · have h1 : ¬ c.toNat < d.toNat := by omega
        have h2 : ¬ d.toNat < c.toNat := by omega
        rw [if_neg h1, if_neg h2, if_neg h2, if_neg h1]
        exact ih ds
      · simp [h, (by omega : ¬ c.toNat < d.toNat)]

lemma lexLe_trans {a b c : List Char} (h1 : lexLe a b = true)
    (h2 : lexLe b c = true) : lexLe a c = true := by
  induction a generalizing b c with
  | nil => rfl
  | cons x xs ih =>
    cases b with
    | nil => simp [lexLe] at h1
    | cons y ys =>
      cases c with
      | nil => simp [lexLe] at h2
      | cons z zs =>
        simp only [lexLe] at h1 h2 ⊢
        rcases Nat.lt_trichotomy x.toNat y.toNat with hxy | hxy | hxy
        · rcases Nat.lt_trichotomy y.toNat z.toNat with hyz | hyz | hyz
          · rw [if_pos (by omega)]
          · rw [if_pos (by omega)]
          · rw [if_neg (by omega), if_pos (by omega)] at h2
            exact absurd h2 (by decide)
        · rcases Nat.lt_trichotomy y.toNat z.toNat with hyz | hyz | hyz
          · rw [if_pos (by omega)]
          · rw [if_neg (by omega), if_neg (by omega)]
            rw [if_neg (by omega), if_neg (by omega)] at h1
            rw [if_neg (by omega), if_neg (by omega)] at h2
            exact ih h1 h2
          · rw [if_neg (by omega), if_pos (by omega)] at h2
            exact absurd h2 (by decide)
        · rw [if_neg (by omega), if_pos (by omega)] at h1
          exact absurd h1 (by decide)

lemma strLe_trans {a b c : String} (h1 : strLe a b = true)
    (h2 : strLe b c = true) : strLe a c = true :=
  lexLe_trans h1 h2

lemma strLe_total (a b : String) : strLe a b || strLe b a :=
  lexLe_total a.data b.data

lemma map_indexOf_self {S : List String} (h : S.Nodup) :
    S.map (fun t => S.indexOf t) = List.range S.length := by
  apply List.ext_getElem
  · simp
  · intro i h1 h2
    simp only [List.getElem_map, List.getElem_range]
    exact List.indexOf_getElem h i (by simpa using h1)

lemma posLe_trans (a b c : Entry α)
    (h1 : decide (a.pos ≤ b.pos) = true) (h2 : decide (b.pos ≤ c.pos) = true) :
    decide (a.pos ≤ c.pos) = true := by
  simp only [decide_eq_true_eq] at h1 h2 ⊢
  omega

lemma posLe_total (a b : Entry α) :
    decide (a.pos ≤ b.pos) || decide (b.pos ≤ a.pos) := by
  rcases Nat.le_total a.pos b.pos with h | h <;> simp [h]

/-- C6: with no explicit columns list, each surviving series is assigned
`pos` equal to the index of its path in the lexicographically sorted path
list, and sorting by `pos` arranges the series so that their paths read in
exactly that sorted order.  `sorted_columns` really is the lexicographic
sort: it is a permutation of the paths that is pairwise `strLe`-ordered.
HDF5 paths are unique, hence the no-duplicate hypothesis. -/
theorem C6_lexicographic_column_order (data : List (Entry α))
    (hnd : (data.map (fun d => d.tree)).Nodup) :
    (sorted_columns data).Pairwise (fun a b => strLe a b = true) ∧
    (sorted_columns data).Perm (data.map (fun d => d.tree)) ∧
    (∀ d ∈ assign_positions data,
      d.pos = (sorted_columns data).indexOf d.tree) ∧
    (sort_by_pos (assign_positions data)).map (fun d => d.tree) =
      sorted_columns data := by
  have hperm : (sorted_columns data).Perm (data.map (fun d => d.tree)) :=
    List.mergeSort_perm _ strLe
  have hsorted : (sorted_columns data).Pairwise (fun a b => strLe a b = true) := by
    unfold sorted_columns
    exact @List.sorted_mergeSort String strLe
      (fun a b c h1 h2 => strLe_trans h1 h2) strLe_total _
  have hSnodup : (sorted_columns data).Nodup := hperm.nodup_iff.mpr hnd
  have hSlen : (sorted_columns data).length = data.length := by
    rw [hperm.length_eq, List.length_map]
  refine ⟨hsorted, hperm, ?_, ?_⟩
  · intro d hd
    simp only [assign_positions, List.mem_map] at hd
    obtain ⟨d0, _, rfl⟩ := hd
    rfl
  · have hposT : (sort_by_pos (assign_positions data)).map (fun d => d.pos) =
        List.range data.length := by
      have hperm2 : (sort_by_pos (assign_positions data)).map (fun d => d.pos)
          |>.Perm (List.range data.length) := by
        have p1 : (sort_by_pos (assign_positions data)).map (fun d => d.pos)
            |>.Perm ((assign_positions data).map (fun d => d.pos)) :=
          (List.mergeSort_perm _ _).map _
        have p2 : (assign_positions data).map (fun d => d.pos) =
            (data.map (fun d => d.tree)).map
              (fun t => (sorted_columns data).indexOf t) := by
          simp [assign_positions, List.map_map]
        have p3 : ((data.map (fun d => d.tree)).map
              (fun t => (sorted_columns data).indexOf t)).Perm
            ((sorted_columns data).map
              (fun t => (sorted_columns data).indexOf t)) :=
          (hperm.symm.map _)
        have p4 : (sorted_columns data).map
            (fun t => (sorted_columns data).indexOf t) =
            List.range (sorted_columns data).length :=
          map_indexOf_self hSnodup
        have p5 : ((assign_positions data).map (fun d => d.pos)).Perm
            (List.range data.length) := by
          rw [p2, ← hSlen, ← p4]
          exact p3
        exact p1.trans p5
      have hsorted2 : ((sort_by_pos (assign_positions data)).map
          (fun d => d.pos)).Sorted (· ≤ ·) := by
        rw [List.Sorted, List.pairwise_map]
        have hs := @List.sorted_mergeSort (Entry α)
          (fun a b => decide (a.pos ≤ b.pos))
          posLe_trans posLe_total (assign_positions data)
        exact hs.imp (fun h => by simpa using h)
      exact List.eq_of_perm_of_sorted hperm2 hsorted2 (List.sorted_le_range _)
    have hTlen : (sort_by_pos (assign_positions data)).length = data.length := by
      simp [sort_by_pos, assign_positions]
    apply List.ext_getElem?
    intro i
    by_cases hi : i < data.length
    · obtain ⟨e, he⟩ : ∃ e, (sort_by_pos (assign_positions data))[i]? = some e :=
        ⟨_, List.getElem?_eq_getElem (by omega)⟩
      have hepos : e.pos = i := by
        have hcg := congrArg (fun l => l[i]?) hposT
        simp only [List.getElem?_map, he, Option.map_some',
          List.getElem?_range hi] at hcg
        exact Option.some.inj hcg
      have heA : e ∈ assign_positions data := by
        have : e ∈ sort_by_pos (assign_positions data) := List.getElem?_mem he
        simpa [sort_by_pos] using this
      have heprops : e.pos = (sorted_columns data).indexOf e.tree ∧
          e.tree ∈ data.map (fun d => d.tree) := by
        simp only [assign_positions, List.mem_map] at heA
        obtain ⟨d0, hd0, rfl⟩ := heA
        exact ⟨rfl, List.mem_map.mpr ⟨d0, hd0, rfl⟩⟩
      have htreeS : e.tree ∈ sorted_columns data :=
        hperm.mem_iff.mpr heprops.2
      have hidx : (sorted_columns data).indexOf e.tree = i := by
        rw [← heprops.1, hepos]
      have hgetS : (sorted_columns data)[i]? = some e.tree := by
        rw [← hidx]
        exact List.getElem?_indexOf htreeS
      rw [List.getElem?_map, he, Option.map_some', hgetS]
    · rw [List.getElem?_eq_none (by simp only [List.length_map, hTlen]; omega),
        List.getElem?_eq_none (by rw [hSlen]; omega)]

/-- Witness for C6: two series listed as `/b`, `/a` come out in the order
`/a`, `/b`. -/
theorem C6_lexicographic_column_order_witness :
    (sort_by_pos (assign_positions
      [{ name := "b", tree := "/b", ndim := 1, values := [(1:Nat), 2] },
       { name := "a", tree := "/a", ndim := 1, values := [3, 4] }])).map
        (fun d => d.tree) =
      sorted_columns
        [{ name := "b", tree := "/b", ndim := 1, values := [(1:Nat), 2] },
         { name := "a", tree := "/a", ndim := 1, values := [3, 4] }] :=
  (C6_lexicographic_column_order _ (by decide)).2.2.2

/-- Specification-side column sizes (spec §4.5), written independently of
the loop in the source: `column_sizes[i]` is the maximum of the length of
`header[i]` and the lengths of all cells present in column `i` of the
body. -/
def specColumnSizes (header : List String) (table : List (List String)) :
    List Nat :=
  (List.range header.length).map (fun i =>
    (table.filterMap (fun row => row[i]?)).foldl
      (fun m (c : String) => Nat.max m c.length)
      ((header[i]?.map (fun c => c.length)).getD 0))

lemma sizes_step_getElem (sizes : List Nat) (row : List String)
    (h : row.length ≤ sizes.length) (i : Nat) :
    (List.zipWith (fun sz (c : String) => Nat.max sz c.length) sizes row ++
      sizes.drop row.length)[i]? =
      match sizes[i]?, row[i]? with
      | some sz, some c => some (Nat.max sz c.length)
      | some sz, none => some sz
      | none, _ => none := by
  by_cases hi : i < row.length
  · rw [List.getElem?_append, if_pos (by simp [List.length_zipWith]; omega),
      List.getElem?_zipWith, List.getElem?_eq_getElem (by omega : i < sizes.length),
      List.getElem?_eq_getElem hi]
  · rw [List.getElem?_append_right (by simp [List.length_zipWith]; omega)]
    have hz : (List.zipWith (fun sz (c : String) => Nat.max sz c.length)
        sizes row).length = row.length := by
      simp [List.length_zipWith]
      omega
    rw [hz, List.getElem?_drop,
      (by omega : row.length + (i - row.length) = i),
      List.getElem?_eq_none (l := row) (by omega)]
    cases sizes[i]? <;> rfl

lemma computeSizes_foldl_getElem (table : List (List String))
    (sizes : List Nat)
    (hfit : ∀ line ∈ table, line.length ≤ sizes.length) (i : Nat) :
    (table.foldl (fun szs line =>
        List.zipWith (fun sz (c : String) => Nat.max sz c.length) szs line ++
          szs.drop line.length) sizes)[i]? =
      (sizes[i]?).map (fun b =>
        (table.filterMap (fun row => row[i]?)).foldl
          (fun m (c : String) => Nat.max m c.length) b) := by
  induction table generalizing sizes with
  | nil => cases hs : sizes[i]? <;> simp [hs]
  | cons row rest ih =>
    rw [List.foldl_cons]
    have hrow : row.length ≤ sizes.length := hfit row (List.mem_cons_self _ _)
    have hstep_len : (List.zipWith (fun sz (c : String) => Nat.max sz c.length)
        sizes row ++ sizes.drop row.length).length = sizes.length := by
      simp [List.length_zipWith]
      omega
    rw [ih _ (fun l hl => by
      rw [hstep_len]
      exact hfit l (List.mem_cons_of_mem _ hl))]
    rw [sizes_step_getElem sizes row hrow i, List.filterMap_cons]
    cases hl : row[i]? <;> cases hs : sizes[i]? <;>
      simp [List.foldl_cons]

lemma computeSizes_eq_spec (header : List String)
    (table : List (List String))
    (hfit : ∀ line ∈ table, line.length ≤ header.length) :
    computeSizes header table = specColumnSizes header table := by
  apply List.ext_getElem?
  intro i
  unfold computeSizes specColumnSizes
  rw [computeSizes_foldl_getElem table (header.map (fun c => c.length))
    (fun l hl => by simpa using hfit l hl) i]
  by_cases hi : i < header.length
  · rw [List.getElem?_map, List.getElem?_map, List.getElem?_range hi]
    simp [List.getElem?_eq_getElem hi]
  · have h1 : header.length ≤ i := by omega
    rw [List.getElem?_eq_none (by simpa using h1),
      List.getElem?_eq_none (by simpa using h1)]
    rfl

lemma specColumnSizes_length (header : List String)
    (table : List (List String)) :
    (specColumnSizes header table).length = header.length := by
  simp [specColumnSizes]

/-- C7: under the table invariant (no row wider than the header), the
renderer produces exactly the line sequence `[header, separator, rows…]`
where the column sizes obey the pointwise-maximum rule of the spec, the
header cells are center-padded to those sizes, the body cells are
right-aligned (left-padded) to them, cells are joined with the delimiter,
and every line is right-trimmed. -/
theorem C7_text_renderer (table : List (List String)) (header : List String)
    (delimiter : String)
    (hfit : ∀ line ∈ table, line.length ≤ header.length) :
    convert_to_text table header delimiter = .ok
      (rstrip (pyJoin delimiter
          (List.zipWith (fun (c : String) w => padCenter w c) header
            (specColumnSizes header table)))
        :: sepLine (specColumnSizes header table) delimiter
        :: table.map (fun line => rstrip (pyJoin delimiter
            (List.zipWith (fun (c : String) w => padLeft w c) line
              (specColumnSizes header table))))) := by
  unfold convert_to_text
  rw [if_pos hfit, computeSizes_eq_spec header table hfit]

/-- Witness for C7 at a concrete table. -/
theorem C7_text_renderer_witness :
    convert_to_text [["1", "22"]] ["x", "y"] "," = .ok
      (rstrip (pyJoin ","
          (List.zipWith (fun (c : String) w => padCenter w c) ["x", "y"]
            (specColumnSizes ["x", "y"] [["1", "22"]])))
        :: sepLine (specColumnSizes ["x", "y"] [["1", "22"]]) ","
        :: [["1", "22"]].map (fun line => rstrip (pyJoin ","
            (List.zipWith (fun (c : String) w => padLeft w c) line
              (specColumnSizes ["x", "y"] [["1", "22"]]))))) :=
  C7_text_renderer [["1", "22"]] ["x", "y"] "," (by decide)

/-- C8: the separator line (index 1 of the output) is a run of `-` of
length `sum(column_sizes) + (columns - 1) * len(delimiter)` (with the
truncated subtraction; for an empty header both it and Python's negative
string repetition give the empty string). -/
theorem C8_separator_rule (table : List (List String))
    (header : List String) (delimiter : String) (lines : List String)
    (hok : convert_to_text table header delimiter = .ok lines) :
    lines[1]? = some ⟨List.replicate ((specColumnSizes header table).sum +
      (header.length - 1) * delimiter.length) '-'⟩ := by
  unfold convert_to_text at hok
  split at hok
  case isTrue hfit =>
    rw [← Except.ok.inj hok]
    simp only [List.getElem?_cons_succ, List.getElem?_cons_zero]
    rw [computeSizes_eq_spec header table hfit]
    unfold sepLine
    rw [specColumnSizes_length]
  case isFalse => exact Except.noConfusion hok

/-- Witness for C8: one column of width 2, so the rule line is `--`. -/
theorem C8_separator_rule_witness :
    ∃ lines, convert_to_text [["aa"]] ["h"] "  " = .ok lines ∧
      lines[1]? = some "--" := by
  refine ⟨_, rfl, ?_⟩
  rw [C8_separator_rule [["aa"]] ["h"] "  " _ rfl]
  decide

lemma intercalate_single (d c : List Char) : List.intercalate d [c] = c := by
  simp [List.intercalate]

lemma intercalate_cons₂ (d a : List Char) {l : List (List Char)}
    (h : l ≠ []) :
    List.intercalate d (a :: l) = a ++ d ++ List.intercalate d l := by
  cases l with
  | nil => exact absurd rfl h
  | cons c tl =>
    unfold List.intercalate
    rw [List.intersperse_cons₂, List.flatten_cons, List.flatten_cons,
      List.append_assoc]

lemma joinSep_eq_intercalate (d : List Char) :
    ∀ parts : List (List Char), joinSep d parts = List.intercalate d parts
  | [] => by simp [joinSep, List.intercalate]
  | [c] => by simp [joinSep, intercalate_single]
  | c :: c2 :: cs => by
    rw [(by rfl : joinSep d (c :: c2 :: cs) = c ++ d ++ joinSep d (c2 :: cs)),
      joinSep_eq_intercalate d (c2 :: cs), intercalate_cons₂ d c (by simp)]

lemma rstripL_append (a b : List Char) :
    rstripL (a ++ b) =
      if rstripL b = [] then rstripL a else a ++ rstripL b := by
  unfold rstripL
  rw [List.reverse_append, List.dropWhile_append]
  by_cases hb : b.reverse.dropWhile pyIsSpace = []
  · rw [if_pos (by simp [hb]), if_pos (by simp [hb])]
  · rw [if_neg (by simp [hb]), if_neg (by simp [hb]), List.reverse_append,
      List.reverse_reverse]

lemma rstripL_eq_nil_iff {l : List Char} :
    rstripL l = [] ↔ ∀ ch ∈ l, pyIsSpace ch = true := by
  unfold rstripL
  rw [List.reverse_eq_nil_iff, List.dropWhile_eq_nil_iff]
  constructor
  · intro h ch hch
    exact h ch (List.mem_reverse.mpr hch)
  · intro h ch hch
    exact h ch (List.mem_reverse.mp hch)

lemma rstripL_of_nonws {l : List Char}
    (h : ∀ ch ∈ l, pyIsSpace ch = false) : rstripL l = l := by
  unfold rstripL
  cases hr : l.reverse with
  | nil =>
    rw [List.reverse_eq_nil_iff] at hr
    simp [hr]
  | cons c rest =>
    have hc : c ∈ l := by
      rw [← List.mem_reverse, hr]
      exact List.mem_cons_self _ _
    rw [List.dropWhile_cons, h c hc]
    simp only [Bool.false_eq_true, if_false]
    rw [← hr, List.reverse_reverse]

lemma rstripL_prefix_self (l : List Char) : rstripL l <+: l := by
  have h := List.dropWhile_suffix (l := l.reverse) pyIsSpace
  have h2 := List.reverse_prefix.mpr h
  rwa [List.reverse_reverse] at h2

lemma pySplit_ne_nil (d s : List Char) : pySplit d s ≠ [] := by
  cases s with
  | nil => simp [pySplit]
  | cons c rest =>
    rw [pySplit]
    split
    · simp
    · split <;> simp_all

lemma pySplit_cell_prepend {d : List Char} (hd : d ≠ []) (c s : List Char)
    (hc : ∀ ch ∈ c, ch ∉ d) :
    pySplit d (c ++ s) = (pySplit d s).modifyHead (fun f => c ++ f) := by
  induction c with
  | nil =>
    rw [List.nil_append]
    cases h : pySplit d s with
    | nil => exact absurd h (pySplit_ne_nil d s)
    | cons f fs => simp
  | cons c0 c' ih =>
    rw [List.cons_append, pySplit]
    have hnp : ¬ (d ≠ [] ∧ d.isPrefixOf (c0 :: (c' ++ s))) := by
      rintro ⟨-, hp⟩
      rw [ List.isPrefixOf_iff_prefix] at hp
      match d, hd, hp with
      | d0 :: dt, _, hp =>
        have h0 : d0 = c0 := (List.cons_prefix_cons.mp hp).1
        refine hc c0 (List.mem_cons_self _ _) ?_
        rw [← h0]
        exact List.mem_cons_self _ _
    rw [dif_neg hnp, ih (fun ch hch => hc ch (List.mem_cons_of_mem _ hch))]
    cases h : pySplit d s with
    | nil => exact absurd h (pySplit_ne_nil d s)
    | cons f fs => simp

lemma pySplit_sep_prepend {d : List Char} (hd : d ≠ []) (s : List Char) :
    pySplit d (d ++ s) = [] :: pySplit d s := by
  obtain ⟨d0, dt, rfl⟩ : ∃ d0 dt, d = d0 :: dt := by
    cases d with
    | nil => exact absurd rfl hd
    | cons d0 dt => exact ⟨d0, dt, rfl⟩
  have hpre : (d0 :: dt).isPrefixOf (d0 :: (dt ++ s)) = true := by
    rw [ List.isPrefixOf_iff_prefix, ← List.cons_append]
    exact List.prefix_append _ _
  rw [List.cons_append, pySplit, dif_pos ⟨by simp, hpre⟩]
  rw [List.length_cons, List.drop_succ_cons, List.drop_left]

lemma pySplit_intercalate_length {d : List Char} (hd : d ≠ []) :
    ∀ cells : List (List Char), cells ≠ [] →
      (∀ c ∈ cells, ∀ ch ∈ c, ch ∉ d) →
      (pySplit d (List.intercalate d cells)).length = cells.length
  | [], h, _ => absurd rfl h
  | [c], _, hcc => by
    have h1 : pySplit d c = [c] := by
      have h2 := pySplit_cell_prepend hd c []
        (fun ch hch => hcc c (by simp) ch hch)
      rw [List.append_nil] at h2
      rw [h2]
      simp [pySplit]
    rw [intercalate_single, h1]
  | c :: c2 :: cs, _, hcc => by
    rw [intercalate_cons₂ d c (by simp), List.append_assoc,
      pySplit_cell_prepend hd c _ (fun ch hch => hcc c (by simp) ch hch),
      pySplit_sep_prepend hd]
    have hrec := pySplit_intercalate_length hd (c2 :: cs) (by simp)
      (fun c' hc' => hcc c' (List.mem_cons_of_mem _ hc'))
    cases hps : pySplit d (List.intercalate d (c2 :: cs)) with
    | nil => exact absurd hps (pySplit_ne_nil _ _)
    | cons f fs =>
      rw [hps] at hrec
      simp only [List.modifyHead_cons, List.length_cons]
      simp only [List.length_cons] at hrec
      omega

lemma rstripL_intercalate {d : List Char} (hd : d ≠ [])
    (hws : ∀ ch ∈ d, pyIsSpace ch = false) :
    ∀ cells : List (List Char), cells ≠ [] →
      ∃ c', (∃ orig ∈ cells, c' <+: orig) ∧
        rstripL (List.intercalate d cells) =
          List.intercalate d (cells.dropLast ++ [c'])
  | [], h => absurd rfl h
  | [c], _ => by
    refine ⟨rstripL c, ⟨c, by simp, rstripL_prefix_self c⟩, ?_⟩
    rw [intercalate_single]
    simp [intercalate_single]
  | c :: c2 :: cs, _ => by
    obtain ⟨c', ⟨orig, horig, hpre⟩, heq⟩ :=
      rstripL_intercalate hd hws (c2 :: cs) (by simp)
    refine ⟨c', ⟨orig, List.mem_cons_of_mem _ horig, hpre⟩, ?_⟩
    have hdnw : rstripL d = d := rstripL_of_nonws hws
    have hIne : rstripL (d ++ List.intercalate d (c2 :: cs)) ≠ [] := by
      rw [rstripL_append]
      split
      · rw [hdnw]
        exact hd
      · intro hcon
        have := List.append_eq_nil.mp hcon
        exact hd this.1
    rw [intercalate_cons₂ d c (by simp), List.append_assoc,
      rstripL_append c _, if_neg hIne, rstripL_append d _]
    have hdrop : (c :: c2 :: cs).dropLast ++ [c'] =
        c :: ((c2 :: cs).dropLast ++ [c']) := by
      simp
    rw [hdrop, intercalate_cons₂ d c (by simp), List.append_assoc]
    by_cases hI : rstripL (List.intercalate d (c2 :: cs)) = []
    · rw [if_pos hI, hdnw]
      -- the tail must be a single all-whitespace cell
      cases cs with
      | nil =>
        rw [intercalate_single] at hI heq
        rw [(by simp : (c2 :: ([] : List (List Char))).dropLast = []),
          List.nil_append, intercalate_single] at heq
        rw [← heq, hI]
        simp [intercalate_single]
      | cons c3 cs' =>
        exfalso
        rw [rstripL_eq_nil_iff] at hI
        obtain ⟨ch, hch⟩ : ∃ ch, ch ∈ d := by
          cases d with
          | nil => exact absurd rfl hd
          | cons x xs => exact ⟨x, by simp⟩
        have hmem : ch ∈ List.intercalate d (c2 :: c3 :: cs') := by
          rw [intercalate_cons₂ d c2 (by simp)]
          exact List.mem_append_left _ (List.mem_append_right _ hch)
        have := hI ch hmem
        rw [hws ch hch] at this
        exact Bool.noConfusion this
    · rw [if_neg hI, heq]

lemma pySplit_rstripL_intercalate_length {d : List Char} (hd : d ≠ [])
    (hws : ∀ ch ∈ d, pyIsSpace ch = false)
    (cells : List (List Char)) (hc : cells ≠ [])
    (hcc : ∀ c ∈ cells, ∀ ch ∈ c, ch ∉ d) :
    (pySplit d (rstripL (List.intercalate d cells))).length = cells.length := by
  obtain ⟨c', ⟨orig, horig, hpre⟩, heq⟩ := rstripL_intercalate hd hws cells hc
  rw [heq]
  rw [pySplit_intercalate_length hd _ (by simp) ?hcc]
  case hcc =>
    intro x hx ch hch
    rcases List.mem_append.mp hx with h | h
    · exact hcc x ((List.dropLast_sublist cells).subset h) ch hch
    · rw [List.mem_singleton] at h
      subst h
      exact hcc orig horig ch (hpre.sublist.subset hch)
  rw [List.length_append, List.length_dropLast]
  have : cells.length ≠ 0 := by
    intro h0
    exact hc (List.length_eq_zero.mp h0)
  simp
  omega

lemma mem_zipWith {α β γ : Type} {f : α → β → γ} {x : γ} :
    ∀ {as : List α} {bs : List β}, x ∈ List.zipWith f as bs →
      ∃ a b, a ∈ as ∧ b ∈ bs ∧ x = f a b
  | a :: as, b :: bs, h => by
    rcases List.mem_cons.mp h with h | h
    · exact ⟨a, b, by simp, by simp, h⟩
    · obtain ⟨a', b', ha, hb, hx⟩ := mem_zipWith h
      exact ⟨a', b', List.mem_cons_of_mem _ ha, List.mem_cons_of_mem _ hb, hx⟩
  | [], _, h => by simp at h
  | _ :: _, [], h => by simp at h

lemma padLeft_data_chars {w : Nat} {s : String} {ch : Char}
    (h : ch ∈ (padLeft w s).data) : ch = ' ' ∨ ch ∈ s.data := by
  unfold padLeft at h
  rcases List.mem_append.mp h with h | h
  · exact Or.inl (List.eq_of_mem_replicate h)
  · exact Or.inr h

lemma padCenter_data_chars {w : Nat} {s : String} {ch : Char}
    (h : ch ∈ (padCenter w s).data) : ch = ' ' ∨ ch ∈ s.data := by
  unfold padCenter at h
  rcases List.mem_append.mp h with h | h
  · rcases List.mem_append.mp h with h | h
    · exact Or.inl (List.eq_of_mem_replicate h)
    · exact Or.inr h
  · exact Or.inl (List.eq_of_mem_replicate h)

lemma space_not_mem {d : List Char}
    (hws : ∀ ch ∈ d, pyIsSpace ch = false) : ' ' ∉ d := fun h =>
  absurd (hws ' ' h) (by decide)

lemma padded_line_field_count {d : List Char} (hd : d ≠ [])
    (hws : ∀ ch ∈ d, pyIsSpace ch = false)
    (cells : List (List Char)) (hne : cells ≠ [])
    (hcc : ∀ c ∈ cells, ∀ ch ∈ c, ch ∉ d) :
    (pySplit d (rstripL (joinSep d cells))).length = cells.length := by
  rw [joinSep_eq_intercalate]
  exact pySplit_rstripL_intercalate_length hd hws cells hne hcc

/-- C9 counterexample: the claim quantifies over every table without
delimiter collisions.  Take the delimiter `aa` with the two header cells
`a`, `a` (no padding: both columns have width 1) and no body rows.  No
cell contains an occurrence of the delimiter (splitting a cell yields a
single field), yet the rendered header line is `aaaa`, which splits into
3 fields, not 2. -/
theorem C9_counterexample :
    convert_to_text [] ["a", "a"] "aa" = .ok ["aaaa", "----"] ∧
    (pySplit "aa".data "a".data).length = 1 ∧
    (pySplit "aa".data "aaaa".data).length = 3 ∧
    (["a", "a"] : List String).length = 2 ∧ (3 : Nat) ≠ 2 := by
  refine ⟨by rfl, by rfl, by rfl, by rfl, by decide⟩

/-- C9 amended: re-splitting each rendered line on the delimiter recovers
one field per column provided the "no collision" condition is strengthened
to: the delimiter is non-empty, none of its characters is in Python's
whitespace set (`pyIsSpace`, what `str.rstrip()` strips), and none of its
characters occurs in any cell; rows must also carry exactly one cell per
column and the table must have at least one column.  (The space padding
then never collides with the delimiter, and the trailing trim cannot eat
a separator.)  This holds for the header line and every body line. -/
theorem C9_split_field_count (table : List (List String))
    (header : List String) (delimiter : String)
    (hd : delimiter.data ≠ [])
    (hws : ∀ ch ∈ delimiter.data, pyIsSpace ch = false)
    (hh : header ≠ [])
    (hfit : ∀ r ∈ table, r.length = header.length)
    (hhead : ∀ cell ∈ header, ∀ ch ∈ cell.data, ch ∉ delimiter.data)
    (hbody : ∀ r ∈ table, ∀ cell ∈ r, ∀ ch ∈ cell.data,
      ch ∉ delimiter.data) :
    ∃ headerLine ruleLine rowLines,
      convert_to_text table header delimiter =
        .ok (headerLine :: ruleLine :: rowLines) ∧
      (pySplit delimiter.data headerLine.data).length = header.length ∧
      (∀ rl ∈ rowLines,
        (pySplit delimiter.data rl.data).length = header.length) := by
  have hfit' : ∀ r ∈ table, r.length ≤ header.length :=
    fun r hr => (hfit r hr).le
  have hsz : (computeSizes header table).length = header.length := by
    rw [computeSizes_eq_spec header table hfit', specColumnSizes_length]
  have hok : convert_to_text table header delimiter = .ok
      (rstrip (pyJoin delimiter
          (List.zipWith (fun (c : String) w => padCenter w c) header
            (computeSizes header table)))
        :: sepLine (computeSizes header table) delimiter
        :: table.map (fun r => rstrip (pyJoin delimiter
            (List.zipWith (fun (c : String) w => padLeft w c) r
              (computeSizes header table))))) := by
    unfold convert_to_text
    rw [if_pos hfit']
  refine ⟨_, _, _, hok, ?_, ?_⟩
  · show (pySplit delimiter.data (rstripL (joinSep delimiter.data
        ((List.zipWith (fun (c : String) w => padCenter w c) header
          (computeSizes header table)).map (fun p => p.data))))).length =
      header.length
    have hcount := padded_line_field_count hd hws
      ((List.zipWith (fun (c : String) w => padCenter w c) header
        (computeSizes header table)).map (fun p => p.data)) ?_ ?_
    · rw [hcount]
      simp only [List.length_map, List.length_zipWith, hsz, Nat.min_self]
    · intro h0
      have hlen := congrArg List.length h0
      simp only [List.length_map, List.length_zipWith, hsz, Nat.min_self,
        List.length_nil] at hlen
      exact hh (List.length_eq_zero.mp hlen)
    · intro x hx ch hch hchd
      obtain ⟨s, hs, rfl⟩ := List.mem_map.mp hx
      obtain ⟨cell, w, hcell, hw, rfl⟩ := mem_zipWith hs
      rcases padCenter_data_chars hch with h | h
      · subst h
        exact space_not_mem hws hchd
      · exact hhead cell hcell ch h hchd
  · intro rl hrl
    obtain ⟨r, hr, rfl⟩ := List.mem_map.mp hrl
    show (pySplit delimiter.data (rstripL (joinSep delimiter.data
        ((List.zipWith (fun (c : String) w => padLeft w c) r
          (computeSizes header table)).map (fun p => p.data))))).length =
      header.length
    have hcount := padded_line_field_count hd hws
      ((List.zipWith (fun (c : String) w => padLeft w c) r
        (computeSizes header table)).map (fun p => p.data)) ?_ ?_
    · rw [hcount]
      simp only [List.length_map, List.length_zipWith, hsz, hfit r hr,
        Nat.min_self]
    · intro h0
      have hlen := congrArg List.length h0
      simp only [List.length_map, List.length_zipWith, hsz, hfit r hr,
        Nat.min_self, List.length_nil] at hlen
      exact hh (List.length_eq_zero.mp hlen)
    · intro x hx ch hch hchd
      obtain ⟨s, hs, rfl⟩ := List.mem_map.mp hx
      obtain ⟨cell, w, hcell, hw, rfl⟩ := mem_zipWith hs
      rcases padLeft_data_chars hch with h | h
      · subst h
        exact space_not_mem hws hchd
      · exact hbody r hr cell hcell ch h hchd

/-- Witness for C9 (amended) at a one-row, two-column table with a comma
delimiter. -/
theorem C9_split_field_count_witness :
    ∃ headerLine ruleLine rowLines,
      convert_to_text [["1", "22"]] ["x", "y"] "," =
        .ok (headerLine :: ruleLine :: rowLines) ∧
      (pySplit ",".data headerLine.data).length = (["x", "y"] : List String).length ∧
      (∀ rl ∈ rowLines,
        (pySplit ",".data rl.data).length = (["x", "y"] : List String).length) := by
  exact C9_split_field_count [["1", "22"]] ["x", "y"] ","
    (by decide) (by decide) (by decide) (by decide) (by decide) (by decide)

end Hdf5Table
